import Mathlib

/-!
Verification of the multi-level multi-queue task-scheduler core found in
`src/unnamed/part_000` (the second `App` component, whose line numbers the
claims cite).  The React state is embedded as explicit records:

* a queue (`subQueues[name]`, `progress[name]`, `initialDuration[name]`,
  membership in `newlyCreatedQueues`) becomes a `QState`;
* a priority group (an ordered list of queue names together with the
  per-name entries of those maps) becomes a `List QState` — names are used
  by the source only for lookup and ordering, so the ordered list of the
  named states is a faithful rendering;
* the whole component state becomes `Sched`.

Numbers are embedded as rationals: every arithmetic step of the source
either moves values verbatim or passes them through
`Math.round(x * 100) / 100`, which is modelled exactly by `round2`.
-/

set_option maxRecDepth 100000

namespace MLQS

/-- Embedding of a task of the main intake queue: `{ value, type }` where
`type` is the string tag `'high'` or `'normal'`, rendered as a Bool. -/
structure Task where
  value : ℚ
  isHigh : Bool
deriving DecidableEq, Repr

/-- Embedding of one sub-queue's state: the `subQueues[name]` array, the
`progress[name]` and `initialDuration[name]` entries, and whether the name
is currently in the `newlyCreatedQueues` set. -/
structure QState where
  pending : List ℚ
  progress : ℚ
  initialDuration : ℚ
  inGrace : Bool
deriving DecidableEq, Repr

instance : Inhabited QState := ⟨⟨[], 0, 0, false⟩⟩

/-- `sq[name].reduce((sum, taskValue) => sum + taskValue, 0)`. -/
def sumPending (q : QState) : ℚ := q.pending.sum

/-- The `forEach` fold of `admitTask` (and of the shrink operations): walk
the remaining queues carrying `(minQueue, minSum)`, replacing the best pair
only on a strict decrease, so ties keep the earlier queue. -/
def minGo : List ℚ → ℕ → ℕ × ℚ → ℕ × ℚ
  | [], _, best => best
  | s :: rest, i, best =>
      minGo rest (i + 1) (if s < best.2 then (i, s) else best)

/-- `minQueue` selection of `admitTask`: start from the group's first queue
and fold the strict-minimum update over the group in order. -/
def minSumIdx (g : List QState) : ℕ :=
  match g with
  | [] => 0
  | q :: rest => (minGo (rest.map sumPending) 1 (0, sumPending q)).1

/-- Functional update of the queue at one position, the rendering of the
source's `{ ...sq, [name]: ... }` object updates. -/
def updAt : List QState → ℕ → (QState → QState) → List QState
  | [], _, _ => []
  | q :: rest, 0, f => f q :: rest
  | q :: rest, n + 1, f => q :: updAt rest n f

/-- `[minQueue]: [...sq[minQueue], task.value]` — append the admitted value
to the tail of the least-loaded queue of the group. -/
def routeGroup (g : List QState) (v : ℚ) : List QState :=
  updAt g (minSumIdx g) (fun q => { q with pending := q.pending ++ [v] })

/-- Embedding of the whole component state: the main intake `queue`, the
ordered high-priority group, the ordered regular-priority group, and the
`decrementPaused` flag. -/
structure Sched where
  intake : List Task
  highQs : List QState
  regQs : List QState
  paused : Bool
deriving DecidableEq, Repr

/-- `admitTask` (source lines 335–395): no-op on an empty intake queue;
otherwise route the head task's value to the min-sum queue of the group
selected by the task's type, drop the head, and set `decrementPaused`. -/
def admitTask (s : Sched) : Sched :=
  match s.intake with
  | [] => s
  | t :: rest =>
      if t.isHigh then
        { s with intake := rest, highQs := routeGroup s.highQs t.value, paused := true }
      else
        { s with intake := rest, regQs := routeGroup s.regQs t.value, paused := true }

/-- `Math.round(x * 100) / 100`: JavaScript `Math.round` is
`⌊x + 1/2⌋` (half-ties go up), applied here after scaling by 100. -/
def round2 (x : ℚ) : ℚ := ((x * 100 + 1 / 2).floor : ℤ) / 100

/-- JavaScript `Math.max` on two numbers. -/
def jsMax (a b : ℚ) : ℚ := if a ≤ b then b else a

/-- One queue's update inside the decrement interval body (lines 676–684):
decrement by 0.4 with rounding and a floor at 0 when the queue is nonempty
and progress is positive, otherwise reset progress to 0. -/
def tickQ (q : QState) : QState :=
  if q.pending.length > 0 ∧ q.progress > 0 then
    { q with progress := jsMax 0 (round2 (q.progress - 2 / 5)) }
  else
    { q with progress := 0 }

/-- The decrement effect (lines 662–692): when `decrementPaused` the effect
returns before installing the interval, so nothing changes; otherwise every
queue of both groups is updated by `tickQ`. -/
def tick (s : Sched) : Sched :=
  if s.paused then s
  else { s with highQs := s.highQs.map tickQ, regQs := s.regQs.map tickQ }

/-- One queue's update in the completion effect (lines 714–733): when the
queue is nonempty, progress is exactly 0 and the recorded initial duration
is positive, drop the head and reset the initial duration. -/
def completeQ (q : QState) : QState :=
  if q.pending.length > 0 ∧ q.progress = 0 ∧ q.initialDuration > 0 then
    { q with pending := q.pending.tail, initialDuration := 0 }
  else q

/-- The completion effect applied to every queue of both groups. -/
def completePass (s : Sched) : Sched :=
  { s with highQs := s.highQs.map completeQ, regQs := s.regQs.map completeQ }

/-- One queue's update in the initialization effect (lines 824–840): when
the queue is nonempty and both progress and initial duration are 0, start
the head at its full duration. -/
def initQ (q : QState) : QState :=
  if q.pending.length > 0 ∧ q.progress = 0 ∧ q.initialDuration = 0 then
    { q with progress := q.pending.headI, initialDuration := q.pending.headI }
  else q

/-- The initialization effect applied to every queue of both groups. -/
def initPass (s : Sched) : Sched :=
  { s with highQs := s.highQs.map initQ, regQs := s.regQs.map initQ }

/-- The idle filter of `redistributeTasks` (lines 753–757). -/
def isIdle (q : QState) : Prop :=
  q.pending = [] ∧ q.progress = 0 ∧ q.initialDuration = 0 ∧ q.inGrace = false

instance : DecidablePred isIdle := fun q =>
  inferInstanceAs (Decidable (q.pending = [] ∧ q.progress = 0 ∧ q.initialDuration = 0 ∧
    q.inGrace = false))

/-- The busy filter of `redistributeTasks` (lines 759–762). -/
def isBusy (q : QState) : Prop :=
  1 < q.pending.length ∧ q.inGrace = false

instance : DecidablePred isBusy := fun q =>
  inferInstanceAs (Decidable (1 < q.pending.length ∧ q.inGrace = false))

/-- Indices (in group order) of the queues satisfying a predicate — the
rendering of `queueGroup.filter(...)`, which yields queue names in group
order; names are positions here. -/
def findIdxs (p : QState → Prop) [DecidablePred p] : List QState → ℕ → List ℕ
  | [], _ => []
  | q :: rest, i =>
      if p q then i :: findIdxs p rest (i + 1) else findIdxs p rest (i + 1)

def idleIdxs (g : List QState) : List ℕ := findIdxs isIdle g 0

def busyIdxs (g : List QState) : List ℕ := findIdxs isBusy g 0

/-- The queue at a position of a group (out-of-range reads give the default
empty queue, mirroring that the source never indexes outside the group). -/
def qAt (g : List QState) (i : ℕ) : QState := g.getD i default

/-- Pending sum of the queue at a position. -/
def sumAt (g : List QState) (i : ℕ) : ℚ := sumPending (qAt g i)

/-- The busiest-queue `forEach` fold of `redistributeTasks` (lines
765–776): replace `(busiestQueue, maxSum)` only on a strict increase, so
ties keep the earlier queue. -/
def busiestGo (g : List QState) : List ℕ → ℕ × ℚ → ℕ × ℚ
  | [], best => best
  | j :: rest, best =>
      busiestGo g rest (if sumAt g j > best.2 then (j, sumAt g j) else best)

/-- `(busiestQueue, maxSum)` after the fold, started at the first busy
queue. -/
def busiestPair (g : List QState) : ℕ × ℚ :=
  match busyIdxs g with
  | [] => (0, 0)
  | i :: rest => busiestGo g rest (i, sumAt g i)

/-- `redistributeTasks` (lines 748–799) on one group: when an idle and a
busy queue both exist and the busiest queue keeps more than one pending
value with a positive sum, pop the busiest queue's last pending value and
prepend it to the first idle queue. -/
def rebalanceGroup (g : List QState) : List QState :=
  if idleIdxs g ≠ [] ∧ busyIdxs g ≠ [] then
    if (qAt g (busiestPair g).1).pending.length > 1 ∧ (busiestPair g).2 > 0 then
      match (qAt g (busiestPair g).1).pending.getLast? with
      | some v =>
          updAt (updAt g (busiestPair g).1
              (fun q => { q with pending := q.pending.dropLast }))
            (idleIdxs g).headI (fun q => { q with pending := v :: q.pending })
      | none => g
    else g
  else g

/-- The load-balancing effect applies `redistributeTasks` to the high group
and then to the regular group; the two passes touch disjoint state. -/
def rebalance (s : Sched) : Sched :=
  { s with highQs := rebalanceGroup s.highQs, regQs := rebalanceGroup s.regQs }

/-- `addHighPriorityQueue` / `addRegularPriorityQueue`: append a fresh
empty queue, zero its progress records, and mark it newly created. -/
def growGroup (g : List QState) : List QState := g ++ [⟨[], 0, 0, true⟩]

/-- Expiry of the 1-second `newlyCreatedQueues` timeout for one queue. -/
def ungraceAt (g : List QState) (i : ℕ) : List QState :=
  updAt g i (fun q => { q with inGrace := false })

/-- `removeHighPriorityQueue` / `removeRegularPriorityQueue` (lines
472–541 and 576–645): no-op for groups of size ≤ 1; otherwise remove the
last queue and, when it holds pending values or positive progress, append
its progress remainder (when positive) followed by its whole pending array
to the min-sum remaining queue. -/
def shrinkGroup (g : List QState) : List QState :=
  if g.length ≤ 1 then g
  else
    if (qAt g (g.length - 1)).pending ≠ [] ∨ (qAt g (g.length - 1)).progress > 0 then
      updAt g.dropLast (minSumIdx g.dropLast)
        (fun q => { q with pending := q.pending ++
          ((if (qAt g (g.length - 1)).progress > 0
            then [(qAt g (g.length - 1)).progress] else []) ++
            (qAt g (g.length - 1)).pending) })
    else g.dropLast

/--
The scheduler's atomic state transitions: pushing a generated task
(`Math.floor(Math.random() * 200)` gives a natural number below 200),
admitting, the 500 ms pause expiry, the decrement tick, the completion
pass, the initialization pass, the rebalancing pass, and growing,
shrinking or grace-expiring either group.
-/
inductive Step : Sched → Sched → Prop
  | enqueue (s : Sched) (n : ℕ) (hn : n < 200) (b : Bool) :
      Step s { s with intake := s.intake ++ [⟨(n : ℚ), b⟩] }
  | admitting (s : Sched) : Step s (admitTask s)
  | unpause (s : Sched) : Step s { s with paused := false }
  | clock (s : Sched) : Step s (tick s)
  | complete (s : Sched) : Step s (completePass s)
  | start (s : Sched) : Step s (initPass s)
  | steal (s : Sched) : Step s (rebalance s)
  | growHigh (s : Sched) : Step s { s with highQs := growGroup s.highQs }
  | growReg (s : Sched) : Step s { s with regQs := growGroup s.regQs }
  | shrinkHigh (s : Sched) : Step s { s with highQs := shrinkGroup s.highQs }
  | shrinkReg (s : Sched) : Step s { s with regQs := shrinkGroup s.regQs }
  | ungraceHigh (s : Sched) (i : ℕ) : Step s { s with highQs := ungraceAt s.highQs i }
  | ungraceReg (s : Sched) (i : ℕ) : Step s { s with regQs := ungraceAt s.regQs i }

/-- The component's initial state: empty intake, `['high1']`,
`['regular1', ..., 'regular4']`, all empty, nothing paused or in grace. -/
def initSched : Sched :=
  ⟨[], [default], [default, default, default, default], false⟩

/-- States the scheduler can reach from its initial state. -/
def Reachable (s : Sched) : Prop := Relation.ReflTransGen Step initSched s

/-- Sum of all pending values across a group. -/
def totalPending (g : List QState) : ℚ := (g.map sumPending).sum

/-- Per-queue state invariant: pending values are nonnegative, progress is
between 0 and the recorded initial duration, and a nonzero recorded
duration is exactly the value sitting at the head of `pending`. -/
def QInv (q : QState) : Prop :=
  (∀ v ∈ q.pending, 0 ≤ v) ∧ 0 ≤ q.progress ∧ q.progress ≤ q.initialDuration ∧
  (q.initialDuration ≠ 0 → ∃ t, q.pending = q.initialDuration :: t)

/-- Whole-scheduler invariant: every queue of both groups satisfies `QInv`
and every waiting intake task has a nonnegative value. -/
def SInv (s : Sched) : Prop :=
  (∀ q ∈ s.highQs, QInv q) ∧ (∀ q ∈ s.regQs, QInv q) ∧ (∀ t ∈ s.intake, 0 ≤ t.value)

/-- State-level reading of "the queue has an initialized in-flight head
task": its recorded initial duration is nonzero and is the value at the
head of its pending sequence. -/
def HasInFlight (q : QState) : Prop :=
  q.initialDuration ≠ 0 ∧ q.pending.head? = some q.initialDuration

/-- Modelled from the spec (§4.2/§4.6, for comparison with the code's
busiest-queue sum): the load of a queue counting the in-flight head by its
remaining `progress` instead of the head's stored original duration. -/
def specStealLoad (q : QState) : ℚ := q.progress + q.pending.tail.sum

/-- A queue blocked by a zero-valued head: the head pending value is 0 and
both progress and the recorded initial duration are 0. -/
def Blocked (q : QState) : Prop :=
  q.pending.head? = some 0 ∧ q.progress = 0 ∧ q.initialDuration = 0

/-- The non-resize transitions: every `Step` except group grow/shrink and
grace expiry, i.e. the steps that occur while the group memberships stay
fixed. -/
inductive StepNR : Sched → Sched → Prop
  | enqueue (s : Sched) (n : ℕ) (hn : n < 200) (b : Bool) :
      StepNR s { s with intake := s.intake ++ [⟨(n : ℚ), b⟩] }
  | admitting (s : Sched) : StepNR s (admitTask s)
  | unpause (s : Sched) : StepNR s { s with paused := false }
  | clock (s : Sched) : StepNR s (tick s)
  | complete (s : Sched) : StepNR s (completePass s)
  | start (s : Sched) : StepNR s (initPass s)
  | steal (s : Sched) : StepNR s (rebalance s)

/-! ### Positional-update and index-filter lemmas -/

theorem updAt_length (l : List QState) (i : ℕ) (f : QState → QState) :
    (updAt l i f).length = l.length := by
  induction l generalizing i with
  | nil => rfl
  | cons q rest ih =>
      cases i with
      | zero => rfl
      | succ n => simpa [updAt] using ih n

theorem qAt_updAt_self (l : List QState) (i : ℕ) (f : QState → QState)
    (h : i < l.length) : qAt (updAt l i f) i = f (qAt l i) := by
  induction l generalizing i with
  | nil => exact absurd h (by simp)
  | cons q rest ih =>
      cases i with
      | zero => rfl
      | succ n => simpa [updAt, qAt] using ih n (by simpa using h)

theorem qAt_updAt_ne (l : List QState) (i j : ℕ) (f : QState → QState)
    (hij : j ≠ i) : qAt (updAt l i f) j = qAt l j := by
  induction l generalizing i j with
  | nil => cases i <;> rfl
  | cons q rest ih =>
      cases i with
      | zero => cases j with
        | zero => exact absurd rfl hij
        | succ m => rfl
      | succ n =>
          cases j with
          | zero => rfl
          | succ m => simpa [updAt, qAt] using ih n m (by omega)

theorem mem_updAt {l : List QState} {i : ℕ} {f : QState → QState} {q : QState}
    (hq : q ∈ updAt l i f) : q ∈ l ∨ (i < l.length ∧ q = f (qAt l i)) := by
  induction l generalizing i with
  | nil => simp [updAt] at hq
  | cons a rest ih =>
      cases i with
      | zero =>
          rcases (List.mem_cons).1 hq with h | h
          · exact Or.inr ⟨by simp, by simpa [qAt] using h⟩
          · exact Or.inl (List.mem_cons_of_mem _ h)
      | succ n =>
          rcases (List.mem_cons).1 hq with h | h
          · exact Or.inl (h ▸ List.mem_cons_self _ _)
          · rcases ih h with h2 | ⟨hlt, he⟩
            · exact Or.inl (List.mem_cons_of_mem _ h2)
            · exact Or.inr ⟨by simpa using hlt, by simpa [qAt] using he⟩

theorem mem_findIdxs (p : QState → Prop) [DecidablePred p] (l : List QState)
    (i j : ℕ) :
    j ∈ findIdxs p l i ↔ ∃ k, k < l.length ∧ j = i + k ∧ p (qAt l k) := by
  induction l generalizing i j with
  | nil => simp [findIdxs]
  | cons q rest ih =>
      by_cases hp : p q
      · simp only [findIdxs, if_pos hp, List.mem_cons, ih]
        constructor
        · rintro (rfl | ⟨k, hk, rfl, hpk⟩)
          · exact ⟨0, by simp, by simp, by simpa [qAt] using hp⟩
          · exact ⟨k + 1, by simpa using hk, by omega, by simpa [qAt] using hpk⟩
        · rintro ⟨k, hk, rfl, hpk⟩
          cases k with
          | zero => exact Or.inl (by simp)
          | succ m =>
              exact Or.inr ⟨m, by simpa using hk, by omega, by simpa [qAt] using hpk⟩
      · simp only [findIdxs, if_neg hp, ih]
        constructor
        · rintro ⟨k, hk, rfl, hpk⟩
          exact ⟨k + 1, by simpa using hk, by omega, by simpa [qAt] using hpk⟩
        · rintro ⟨k, hk, rfl, hpk⟩
          cases k with
          | zero => exact absurd (by simpa [qAt] using hpk) hp
          | succ m =>
              exact ⟨m, by simpa using hk, by omega, by simpa [qAt] using hpk⟩

theorem findIdxs_ge (p : QState → Prop) [DecidablePred p] (l : List QState)
    (i j : ℕ) (hj : j ∈ findIdxs p l i) : i ≤ j := by
  rcases (mem_findIdxs p l i j).1 hj with ⟨k, _, rfl, _⟩
  omega

theorem findIdxs_pairwise (p : QState → Prop) [DecidablePred p]
    (l : List QState) (i : ℕ) : (findIdxs p l i).Pairwise (· < ·) := by
  induction l generalizing i with
  | nil => simp [findIdxs]
  | cons q rest ih =>
      by_cases hp : p q
      · simp only [findIdxs, if_pos hp]
        exact List.Pairwise.cons
          (fun j hj => lt_of_lt_of_le (Nat.lt_succ_self i) (findIdxs_ge p rest (i + 1) j hj))
          (ih (i + 1))
      · simpa [findIdxs, if_neg hp] using ih (i + 1)

theorem headI_least {L : List ℕ} (hL : L ≠ []) (hp : L.Pairwise (· < ·)) :
    L.headI ∈ L ∧ ∀ j ∈ L, L.headI ≤ j := by
  cases L with
  | nil => exact absurd rfl hL
  | cons a t =>
      refine ⟨List.mem_cons_self _ _, ?_⟩
      intro j hj
      rcases (List.mem_cons).1 hj with rfl | hj
      · exact le_refl _
      · exact le_of_lt ((List.pairwise_cons.1 hp).1 j hj)

/-! ### Characterization of the strict-minimum fold of `admitTask` -/

theorem minGo_spec (l : List ℚ) (i bi : ℕ) (bs : ℚ) :
    (minGo l i (bi, bs) = (bi, bs) ∧ ∀ k, k < l.length → bs ≤ l.getD k 0)
    ∨ (∃ k, k < l.length ∧ minGo l i (bi, bs) = (i + k, l.getD k 0) ∧
        l.getD k 0 < bs ∧ (∀ m, m < l.length → l.getD k 0 ≤ l.getD m 0) ∧
        (∀ m, m < k → l.getD k 0 < l.getD m 0)) := by
  induction l generalizing i bi bs with
  | nil => exact Or.inl ⟨rfl, fun k hk => absurd hk (by simp)⟩
  | cons s rest ih =>
      have hstep : minGo (s :: rest) i (bi, bs) =
          minGo rest (i + 1) (if s < bs then (i, s) else (bi, bs)) := rfl
      by_cases hs : s < bs
      · rw [hstep, if_pos hs]
        rcases ih (i + 1) i s with ⟨heq, hall⟩ | ⟨k, hk, heq, hlt, hall, hfst⟩
        · refine Or.inr ⟨0, by simp, ?_, by simpa using hs, ?_, ?_⟩
          · simpa using heq
          · intro m hm
            cases m with
            | zero => exact le_refl _
            | succ m2 => simpa using hall m2 (by simpa using hm)
          · intro m hm
            exact absurd hm (Nat.not_lt_zero m)
        · have hkv : (rest.getD k 0 : ℚ) < s := hlt
          refine Or.inr ⟨k + 1, by simpa using hk, ?_, lt_trans hkv hs, ?_, ?_⟩
          · have : i + 1 + k = i + (k + 1) := by omega
            rw [← this]
            simpa using heq
          · intro m hm
            cases m with
            | zero => simpa using le_of_lt hkv
            | succ m2 => simpa using hall m2 (by simpa using hm)
          · intro m hm
            cases m with
            | zero => simpa using hkv
            | succ m2 => simpa using hfst m2 (by omega)
      · rw [hstep, if_neg hs]
        push_neg at hs
        rcases ih (i + 1) bi bs with ⟨heq, hall⟩ | ⟨k, hk, heq, hlt, hall, hfst⟩
        · refine Or.inl ⟨heq, ?_⟩
          intro k hk
          cases k with
          | zero => simpa using hs
          | succ m2 => simpa using hall m2 (by simpa using hk)
        · have hkv : (rest.getD k 0 : ℚ) < bs := hlt
          refine Or.inr ⟨k + 1, by simpa using hk, ?_, by simpa using hkv, ?_, ?_⟩
          · have : i + 1 + k = i + (k + 1) := by omega
            rw [← this]
            simpa using heq
          · intro m hm
            cases m with
            | zero => simpa using le_of_lt (lt_of_lt_of_le hkv hs)
            | succ m2 => simpa using hall m2 (by simpa using hm)
          · intro m hm
            cases m with
            | zero => simpa using lt_of_lt_of_le hkv hs
            | succ m2 => simpa using hfst m2 (by omega)

theorem getD_map_sumPending (rest : List QState) (k : ℕ) (hk : k < rest.length) :
    (rest.map sumPending).getD k 0 = sumAt rest k := by
  induction rest generalizing k with
  | nil => exact absurd hk (by simp)
  | cons q t ih =>
      cases k with
      | zero => rfl
      | succ m => simpa [qAt, sumAt] using ih m (by simpa using hk)

theorem sumAt_cons_succ (q : QState) (rest : List QState) (j : ℕ) :
    sumAt (q :: rest) (j + 1) = sumAt rest j := rfl

/-- `admitTask`'s selection is least-loaded with ties to the first queue in
group order: it is in range, its pending sum is a minimum over the group,
and every strictly earlier queue has a strictly larger pending sum. -/
theorem minSumIdx_spec (g : List QState) (hg : g ≠ []) :
    minSumIdx g < g.length ∧
    (∀ j, j < g.length → sumAt g (minSumIdx g) ≤ sumAt g j) ∧
    (∀ j, j < minSumIdx g → sumAt g (minSumIdx g) < sumAt g j) := by
  cases g with
  | nil => exact absurd rfl hg
  | cons q rest =>
      have hmain := minGo_spec (rest.map sumPending) 1 0 (sumPending q)
      rcases hmain with ⟨heq, hall⟩ | ⟨k, hk, heq, hlt, hall, hfst⟩
      · have hidx : minSumIdx (q :: rest) = 0 := by
          simp [minSumIdx, heq]
        refine ⟨by simp [hidx], ?_, ?_⟩
        · intro j hj
          rw [hidx]
          cases j with
          | zero => exact le_refl _
          | succ m =>
              have hm : m < rest.length := by simpa using hj
              have h2 := hall m (by simpa using hm)
              rw [getD_map_sumPending rest m hm] at h2
              simpa [sumAt, qAt] using h2
        · intro j hj
          rw [hidx] at hj
          exact absurd hj (Nat.not_lt_zero j)
      · have hk2 : k < rest.length := by simpa using hk
        have hidx : minSumIdx (q :: rest) = k + 1 := by
          simp [minSumIdx, heq, Nat.add_comm 1 k]
        have hval : sumAt (q :: rest) (minSumIdx (q :: rest)) =
            (rest.map sumPending).getD k 0 := by
          rw [hidx, sumAt_cons_succ, getD_map_sumPending rest k hk2]
        refine ⟨by rw [hidx]; simpa using Nat.succ_lt_succ hk2, ?_, ?_⟩
        · intro j hj
          rw [hval]
          cases j with
          | zero => exact le_of_lt (by simpa [sumAt, qAt] using hlt)
          | succ m =>
              have hm : m < rest.length := by simpa using hj
              have h2 := hall m (by simpa using hm)
              rw [getD_map_sumPending rest m hm] at h2
              simpa [sumAt_cons_succ] using h2
        · intro j hj
          rw [hval]
          rw [hidx] at hj
          cases j with
          | zero => simpa [sumAt, qAt] using hlt
          | succ m =>
              have hm : m < k := by omega
              have h2 := hfst m hm
              rw [getD_map_sumPending rest m (by omega)] at h2
              simpa [sumAt_cons_succ] using h2

/-! ### Characterization of the strict-maximum fold of `redistributeTasks` -/

theorem busiestGo_spec (g : List QState) (L : List ℕ) (bi : ℕ)
    (hp : (bi :: L).Pairwise (· < ·)) :
    (busiestGo g L (bi, sumAt g bi) = (bi, sumAt g bi) ∧
      ∀ j ∈ L, sumAt g j ≤ sumAt g bi)
    ∨ (∃ b ∈ L, busiestGo g L (bi, sumAt g bi) = (b, sumAt g b) ∧
        sumAt g bi < sumAt g b ∧ (∀ j ∈ L, sumAt g j ≤ sumAt g b) ∧
        (∀ j ∈ L, j < b → sumAt g j < sumAt g b)) := by
  induction L generalizing bi with
  | nil => exact Or.inl ⟨rfl, by simp⟩
  | cons j rest ih =>
      have hbij : bi < j := (List.pairwise_cons.1 hp).1 j (List.mem_cons_self _ _)
      have hpj : (j :: rest).Pairwise (· < ·) := (List.pairwise_cons.1 hp).2
      have hstep : busiestGo g (j :: rest) (bi, sumAt g bi) =
          busiestGo g rest
            (if sumAt g j > sumAt g bi then (j, sumAt g j) else (bi, sumAt g bi)) := rfl
      by_cases hs : sumAt g j > sumAt g bi
      · rw [hstep, if_pos hs]
        rcases ih j hpj with ⟨heq, hall⟩ | ⟨b, hb, heq, hlt, hall, hfst⟩
        · refine Or.inr ⟨j, List.mem_cons_self _ _, heq, hs, ?_, ?_⟩
          · intro m hm
            rcases (List.mem_cons).1 hm with rfl | hm
            · exact le_refl _
            · exact hall m hm
          · intro m hm hmj
            rcases (List.mem_cons).1 hm with rfl | hm
            · exact absurd hmj (lt_irrefl m)
            · exact absurd hmj (not_lt_of_gt ((List.pairwise_cons.1 hpj).1 m hm))
        · refine Or.inr ⟨b, List.mem_cons_of_mem _ hb, heq, lt_trans hs hlt, ?_, ?_⟩
          · intro m hm
            rcases (List.mem_cons).1 hm with rfl | hm
            · exact le_of_lt hlt
            · exact hall m hm
          · intro m hm hmb
            rcases (List.mem_cons).1 hm with rfl | hm
            · exact hlt
            · exact hfst m hm hmb
      · rw [hstep, if_neg hs]
        push_neg at hs
        have hpr : (bi :: rest).Pairwise (· < ·) := by
          have hsub : (bi :: rest).Sublist (bi :: j :: rest) :=
            List.Sublist.cons₂ bi (List.sublist_cons_self j rest)
          exact hp.sublist hsub
        rcases ih bi hpr with ⟨heq, hall⟩ | ⟨b, hb, heq, hlt, hall, hfst⟩
        · refine Or.inl ⟨heq, ?_⟩
          intro m hm
          rcases (List.mem_cons).1 hm with rfl | hm
          · exact hs
          · exact hall m hm
        · refine Or.inr ⟨b, List.mem_cons_of_mem _ hb, heq, hlt, ?_, ?_⟩
          · intro m hm
            rcases (List.mem_cons).1 hm with rfl | hm
            · exact le_of_lt (lt_of_le_of_lt hs hlt)
            · exact hall m hm
          · intro m hm hmb
            rcases (List.mem_cons).1 hm with rfl | hm
            · exact lt_of_le_of_lt hs hlt
            · exact hfst m hm hmb

/-- `redistributeTasks`'s busiest-queue choice is the maximal raw pending
sum over the busy queues with ties to the first in group order, and the
recorded `maxSum` is that queue's pending sum. -/
theorem busiestPair_spec (g : List QState) (hb : busyIdxs g ≠ []) :
    (busiestPair g).1 ∈ busyIdxs g ∧
    (busiestPair g).2 = sumAt g (busiestPair g).1 ∧
    (∀ j ∈ busyIdxs g, sumAt g j ≤ sumAt g (busiestPair g).1) ∧
    (∀ j ∈ busyIdxs g, j < (busiestPair g).1 → sumAt g j < sumAt g (busiestPair g).1) := by
  rcases hL : busyIdxs g with _ | ⟨i, rest⟩
  · exact absurd hL hb
  · have hp : (i :: rest).Pairwise (· < ·) := by
      rw [← hL]
      exact findIdxs_pairwise isBusy g 0
    have hbp : busiestPair g = busiestGo g rest (i, sumAt g i) := by
      simp [busiestPair, hL]
    rcases busiestGo_spec g rest i hp with ⟨heq, hall⟩ | ⟨b, hbm, heq, hlt, hall, hfst⟩
    · rw [hbp, heq]
      refine ⟨List.mem_cons_self _ _, rfl, ?_, ?_⟩
      · intro m hm
        rcases (List.mem_cons).1 hm with rfl | hm
        · exact le_refl _
        · exact hall m hm
      · intro m hm hmi
        rcases (List.mem_cons).1 hm with rfl | hm
        · exact absurd hmi (lt_irrefl m)
        · exact absurd hmi (not_lt_of_gt ((List.pairwise_cons.1 hp).1 m hm))
    · rw [hbp, heq]
      refine ⟨List.mem_cons_of_mem _ hbm, rfl, ?_, ?_⟩
      · intro m hm
        rcases (List.mem_cons).1 hm with rfl | hm
        · exact le_of_lt hlt
        · exact hall m hm
      · intro m hm hmb
        rcases (List.mem_cons).1 hm with rfl | hm
        · exact hlt
        · exact hfst m hm hmb

/-! ### Arithmetic bounds for the decrement step -/

theorem rat_floor_le (x : ℚ) : (x.floor : ℚ) ≤ x := Rat.le_floor.mp (le_refl _)

theorem round2_le (x : ℚ) : round2 x ≤ x + 1 / 200 := by
  unfold round2
  have h := rat_floor_le (x * 100 + 1 / 2)
  have h2 : ((x * 100 + 1 / 2).floor : ℚ) / 100 ≤ (x * 100 + 1 / 2) / 100 :=
    (div_le_div_iff_of_pos_right (by norm_num : (0:ℚ) < 100)).mpr h
  calc ((x * 100 + 1 / 2).floor : ℚ) / 100 ≤ (x * 100 + 1 / 2) / 100 := h2
    _ = x + 1 / 200 := by ring

theorem jsMax_zero_nonneg (r : ℚ) : 0 ≤ jsMax 0 r := by
  unfold jsMax
  split
  · assumption
  · exact le_refl 0

theorem jsMax_zero_le (r c : ℚ) (hc : 0 ≤ c) (hr : r ≤ c) : jsMax 0 r ≤ c := by
  unfold jsMax
  split
  · exact hr
  · exact hc

/-- The decremented progress value stays within `[0, previous]` whenever
the previous value was positive. -/
theorem tick_progress_bounds (p : ℚ) (hp : 0 < p) :
    0 ≤ jsMax 0 (round2 (p - 2 / 5)) ∧ jsMax 0 (round2 (p - 2 / 5)) ≤ p := by
  refine ⟨jsMax_zero_nonneg _, jsMax_zero_le _ _ (le_of_lt hp) ?_⟩
  calc round2 (p - 2 / 5) ≤ (p - 2 / 5) + 1 / 200 := round2_le _
    _ ≤ p := by linarith

/-! ### Decomposition of a group at its last queue -/

theorem dropLast_append_qAt (g : List QState) (hg : g ≠ []) :
    g.dropLast ++ [qAt g (g.length - 1)] = g := by
  induction g with
  | nil => exact absurd rfl hg
  | cons q rest ih =>
      cases rest with
      | nil => rfl
      | cons r t =>
          have h2 := ih (by simp)
          have hq : qAt (q :: r :: t) ((q :: r :: t).length - 1) =
              qAt (r :: t) ((r :: t).length - 1) := by
            simp [qAt]
          calc (q :: r :: t).dropLast ++ [qAt (q :: r :: t) ((q :: r :: t).length - 1)]
              = q :: ((r :: t).dropLast ++ [qAt (r :: t) ((r :: t).length - 1)]) := by
                rw [hq]; rfl
            _ = q :: r :: t := by rw [h2]

theorem totalPending_append (a b : List QState) :
    totalPending (a ++ b) = totalPending a + totalPending b := by
  simp [totalPending]

theorem totalPending_updAt_append (l : List QState) (i : ℕ) (m : List ℚ)
    (h : i < l.length) :
    totalPending (updAt l i (fun q => { q with pending := q.pending ++ m })) =
      totalPending l + m.sum := by
  induction l generalizing i with
  | nil => exact absurd h (by simp)
  | cons q rest ih =>
      cases i with
      | zero =>
          show totalPending ({ q with pending := q.pending ++ m } :: rest) = _
          simp [totalPending, sumPending]
          ring
      | succ n =>
          show totalPending (q :: updAt rest n _) = _
          have h2 := ih n (by simpa using h)
          simp only [totalPending, List.map_cons, List.sum_cons] at h2 ⊢
          rw [h2]
          ring

/-! ### Membership characterizations of the idle and busy filters -/

theorem qAt_mem (l : List QState) (i : ℕ) (h : i < l.length) : qAt l i ∈ l := by
  induction l generalizing i with
  | nil => exact absurd h (by simp)
  | cons q rest ih =>
      cases i with
      | zero => exact List.mem_cons_self _ _
      | succ n => exact List.mem_cons_of_mem _ (ih n (by simpa using h))

theorem mem_idleIdxs (g : List QState) (j : ℕ) :
    j ∈ idleIdxs g ↔ j < g.length ∧ isIdle (qAt g j) := by
  rw [idleIdxs, mem_findIdxs]
  constructor
  · rintro ⟨k, hk, rfl, hp⟩
    exact ⟨by simpa using hk, by simpa using hp⟩
  · rintro ⟨hj, hp⟩
    exact ⟨j, hj, by omega, hp⟩

theorem mem_busyIdxs (g : List QState) (j : ℕ) :
    j ∈ busyIdxs g ↔ j < g.length ∧ isBusy (qAt g j) := by
  rw [busyIdxs, mem_findIdxs]
  constructor
  · rintro ⟨k, hk, rfl, hp⟩
    exact ⟨by simpa using hk, by simpa using hp⟩
  · rintro ⟨hj, hp⟩
    exact ⟨j, hj, by omega, hp⟩

/-- The first idle queue chosen by `redistributeTasks`: it is idle, in
range, and no strictly earlier queue of the group is idle. -/
theorem idleHead_spec (g : List QState) (h : idleIdxs g ≠ []) :
    (idleIdxs g).headI < g.length ∧ isIdle (qAt g (idleIdxs g).headI) ∧
    ∀ j, j < (idleIdxs g).headI → ¬ isIdle (qAt g j) := by
  have hle := headI_least h (findIdxs_pairwise isIdle g 0)
  have hmem := (mem_idleIdxs g _).1 hle.1
  refine ⟨hmem.1, hmem.2, ?_⟩
  intro j hj hI
  have hjm : j ∈ idleIdxs g := (mem_idleIdxs g j).2 ⟨lt_trans hj hmem.1, hI⟩
  exact absurd (hle.2 j hjm) (by omega)

/-! ### Preservation of the per-queue invariant by each operation -/

theorem QInv_append_vals (q : QState) (m : List ℚ) (hq : QInv q)
    (hm : ∀ v ∈ m, 0 ≤ v) : QInv { q with pending := q.pending ++ m } := by
  obtain ⟨hvals, h0, hle, hhead⟩ := hq
  refine ⟨?_, h0, hle, ?_⟩
  · intro v hv
    rcases List.mem_append.1 hv with h | h
    · exact hvals v h
    · exact hm v h
  · intro hne
    rcases hhead hne with ⟨t, ht⟩
    exact ⟨t ++ m, by simp [ht]⟩

theorem QInv_tickQ (q : QState) (hq : QInv q) : QInv (tickQ q) := by
  obtain ⟨hvals, h0, hle, hhead⟩ := hq
  unfold tickQ
  split
  · next hcond =>
      have hb := tick_progress_bounds q.progress hcond.2
      exact ⟨hvals, hb.1, le_trans hb.2 hle, hhead⟩
  · exact ⟨hvals, le_refl 0, le_trans h0 hle, hhead⟩

theorem QInv_completeQ (q : QState) (hq : QInv q) : QInv (completeQ q) := by
  obtain ⟨hvals, h0, hle, hhead⟩ := hq
  unfold completeQ
  split
  · next hcond =>
      exact ⟨fun v hv => hvals v (List.mem_of_mem_tail hv), h0, le_of_eq hcond.2.1,
        fun hne => absurd rfl hne⟩
  · exact ⟨hvals, h0, hle, hhead⟩

theorem QInv_initQ (q : QState) (hq : QInv q) : QInv (initQ q) := by
  obtain ⟨hvals, h0, hle, hhead⟩ := hq
  unfold initQ
  split
  · next hcond =>
      cases hp : q.pending with
      | nil => rw [hp] at hcond; simp at hcond
      | cons a t =>
          rw [hp] at hvals
          refine ⟨hvals, ?_, le_refl _, ?_⟩
          · exact hvals a (List.mem_cons_self _ _)
          · intro _
            exact ⟨t, rfl⟩
  · exact ⟨hvals, h0, hle, hhead⟩

theorem QInv_dropLast (q : QState) (hq : QInv q) (hlen : 1 < q.pending.length) :
    QInv { q with pending := q.pending.dropLast } := by
  obtain ⟨hvals, h0, hle, hhead⟩ := hq
  refine ⟨?_, h0, hle, ?_⟩
  · intro v hv
    exact hvals v ((List.dropLast_sublist q.pending).subset hv)
  · intro hne
    rcases hhead hne with ⟨t, ht⟩
    cases t with
    | nil => rw [ht] at hlen; simp at hlen
    | cons b u => exact ⟨(b :: u).dropLast, by rw [ht]; rfl⟩

theorem QInv_cons_val (q : QState) (v : ℚ) (hq : QInv q) (hv : 0 ≤ v)
    (hd : q.initialDuration = 0) : QInv { q with pending := v :: q.pending } := by
  obtain ⟨hvals, h0, hle, _⟩ := hq
  refine ⟨?_, h0, hle, ?_⟩
  · intro w hw
    rcases (List.mem_cons).1 hw with rfl | hw
    · exact hv
    · exact hvals w hw
  · intro hne
    exact absurd hd hne

theorem QInv_setGrace (q : QState) (b : Bool) (hq : QInv q) :
    QInv { q with inGrace := b } := hq

/-! ### Preservation of the per-queue invariant by the group operations -/

theorem QInv_routeGroup (g : List QState) (v : ℚ) (hv : 0 ≤ v)
    (hg : ∀ q ∈ g, QInv q) : ∀ q ∈ routeGroup g v, QInv q := by
  intro q hq
  rcases mem_updAt hq with h | ⟨hlt, rfl⟩
  · exact hg q h
  · exact QInv_append_vals _ [v] (hg _ (qAt_mem g _ hlt)) (by simpa using hv)

/-- `redistributeTasks` either leaves the group unchanged or performs
exactly the guarded steal: pop the busiest queue's last pending value and
prepend it to the first idle queue. -/
theorem rebalanceGroup_cases (g : List QState) :
    rebalanceGroup g = g ∨
    (idleIdxs g ≠ [] ∧ busyIdxs g ≠ [] ∧
      1 < (qAt g (busiestPair g).1).pending.length ∧ 0 < (busiestPair g).2 ∧
      ∃ v, (qAt g (busiestPair g).1).pending.getLast? = some v ∧
        rebalanceGroup g =
          updAt (updAt g (busiestPair g).1
              (fun q => { q with pending := q.pending.dropLast }))
            (idleIdxs g).headI (fun q => { q with pending := v :: q.pending })) := by
  unfold rebalanceGroup
  split
  · next hcond =>
      split
      · next hguard =>
          cases hLast : (qAt g (busiestPair g).1).pending.getLast? with
          | none => exact Or.inl rfl
          | some v =>
              exact Or.inr ⟨hcond.1, hcond.2, hguard.1, hguard.2, v, rfl, rfl⟩
      · exact Or.inl rfl
  · exact Or.inl rfl

theorem QInv_rebalanceGroup (g : List QState) (hg : ∀ q ∈ g, QInv q) :
    ∀ q ∈ rebalanceGroup g, QInv q := by
  rcases rebalanceGroup_cases g with heq | ⟨hidle, hbusy, hlen, _, v, hLast, heq⟩
  · rw [heq]; exact hg
  · rw [heq]
    intro q hq
    have hbspec := busiestPair_spec g hbusy
    have hbmem := (mem_busyIdxs g _).1 hbspec.1
    have hispec := idleHead_spec g hidle
    have hne : (idleIdxs g).headI ≠ (busiestPair g).1 := by
      intro hcontra
      have h1 := hispec.2.1.1
      rw [hcontra] at h1
      rw [h1] at hlen
      simp at hlen
    have hvmem : v ∈ (qAt g (busiestPair g).1).pending :=
      List.mem_of_getLast?_eq_some hLast
    have hvpos : 0 ≤ v := (hg _ (qAt_mem g _ hbmem.1)).1 v hvmem
    rcases mem_updAt hq with h | ⟨hlt, rfl⟩
    · rcases mem_updAt h with h2 | ⟨hlt2, rfl⟩
      · exact hg q h2
      · exact QInv_dropLast _ (hg _ (qAt_mem g _ hlt2)) hlen
    · rw [qAt_updAt_ne _ _ _ _ hne]
      exact QInv_cons_val _ v (hg _ (qAt_mem g _ hispec.1)) hvpos hispec.2.1.2.2.1

theorem QInv_growGroup (g : List QState) (hg : ∀ q ∈ g, QInv q) :
    ∀ q ∈ growGroup g, QInv q := by
  intro q hq
  rcases List.mem_append.1 hq with h | h
  · exact hg q h
  · have : q = ⟨[], 0, 0, true⟩ := by simpa using h
    rw [this]
    exact ⟨by simp, le_refl 0, le_refl 0, fun hne => absurd rfl hne⟩

theorem QInv_ungraceAt (g : List QState) (i : ℕ) (hg : ∀ q ∈ g, QInv q) :
    ∀ q ∈ ungraceAt g i, QInv q := by
  intro q hq
  rcases mem_updAt hq with h | ⟨hlt, rfl⟩
  · exact hg q h
  · exact QInv_setGrace _ _ (hg _ (qAt_mem g _ hlt))

theorem QInv_shrinkGroup (g : List QState) (hg : ∀ q ∈ g, QInv q) :
    ∀ q ∈ shrinkGroup g, QInv q := by
  unfold shrinkGroup
  split
  · exact hg
  · next hlen =>
      have hgl : g.length - 1 < g.length := by omega
      have hq_qtr : QInv (qAt g (g.length - 1)) := hg _ (qAt_mem g _ hgl)
      have hmoved : ∀ v ∈ (if (qAt g (g.length - 1)).progress > 0
          then [(qAt g (g.length - 1)).progress] else []) ++ (qAt g (g.length - 1)).pending,
          0 ≤ v := by
        intro v hv
        rcases List.mem_append.1 hv with h | h
        · split at h
          · next hp =>
              have : v = (qAt g (g.length - 1)).progress := by simpa using h
              rw [this]
              exact le_of_lt hp
          · simp at h
        · exact hq_qtr.1 v h
      split
      · intro q hq
        rcases mem_updAt hq with h | ⟨hlt, rfl⟩
        · exact hg q ((List.dropLast_sublist g).subset h)
        · exact QInv_append_vals _ _ (hg _ ((List.dropLast_sublist g).subset
            (qAt_mem g.dropLast _ hlt))) hmoved
      · intro q hq
        exact hg q ((List.dropLast_sublist g).subset hq)

/-! ### The scheduler invariant is preserved by every step -/

theorem SInv_initSched : SInv initSched := by
  refine ⟨?_, ?_, by simp [initSched]⟩ <;>
  · intro q hq
    have hd : q = (default : QState) := by
      simp [initSched] at hq
      exact hq
    rw [hd]
    exact ⟨by simp [default], le_refl 0, le_refl 0, fun hne => absurd rfl hne⟩

theorem admitTask_nil (s : Sched) (h : s.intake = []) : admitTask s = s := by
  unfold admitTask
  rw [h]

theorem admitTask_cons_high (s : Sched) (t : Task) (rest : List Task)
    (h : s.intake = t :: rest) (hb : t.isHigh = true) :
    admitTask s =
      { s with intake := rest, highQs := routeGroup s.highQs t.value, paused := true } := by
  unfold admitTask
  rw [h]
  simp [hb]

theorem admitTask_cons_normal (s : Sched) (t : Task) (rest : List Task)
    (h : s.intake = t :: rest) (hb : t.isHigh = false) :
    admitTask s =
      { s with intake := rest, regQs := routeGroup s.regQs t.value, paused := true } := by
  unfold admitTask
  rw [h]
  simp [hb]

theorem SInv_admitTask (s : Sched) (hs : SInv s) : SInv (admitTask s) := by
  obtain ⟨hh, hr, hi⟩ := hs
  cases hint : s.intake with
  | nil => rw [admitTask_nil s hint]; exact ⟨hh, hr, hi⟩
  | cons t rest =>
      have htv : 0 ≤ t.value := hi t (by rw [hint]; exact List.mem_cons_self _ _)
      have hrest : ∀ u ∈ rest, 0 ≤ u.value := by
        intro u hu
        exact hi u (by rw [hint]; exact List.mem_cons_of_mem _ hu)
      by_cases hb : t.isHigh = true
      · rw [admitTask_cons_high s t rest hint hb]
        exact ⟨QInv_routeGroup _ _ htv hh, hr, hrest⟩
      · rw [admitTask_cons_normal s t rest hint (by simpa using hb)]
        exact ⟨hh, QInv_routeGroup _ _ htv hr, hrest⟩

theorem SInv_mapQs (f : QState → QState) (hf : ∀ q, QInv q → QInv (f q))
    (g : List QState) (hg : ∀ q ∈ g, QInv q) : ∀ q ∈ g.map f, QInv q := by
  intro q hq
  rcases List.mem_map.1 hq with ⟨a, ha, rfl⟩
  exact hf a (hg a ha)

theorem SInv_step (s s2 : Sched) (hs : SInv s) (hstep : Step s s2) : SInv s2 := by
  obtain ⟨hh, hr, hi⟩ := hs
  cases hstep with
  | enqueue n hn b =>
      refine ⟨hh, hr, ?_⟩
      intro t ht
      rcases List.mem_append.1 ht with h | h
      · exact hi t h
      · have : t = ⟨(n : ℚ), b⟩ := by simpa using h
        rw [this]
        show (0:ℚ) ≤ (n : ℚ)
        exact_mod_cast Nat.zero_le n
  | admitting => exact SInv_admitTask s ⟨hh, hr, hi⟩
  | unpause => exact ⟨hh, hr, hi⟩
  | clock =>
      unfold tick
      split
      · exact ⟨hh, hr, hi⟩
      · exact ⟨SInv_mapQs tickQ QInv_tickQ _ hh, SInv_mapQs tickQ QInv_tickQ _ hr, hi⟩
  | complete =>
      exact ⟨SInv_mapQs completeQ QInv_completeQ _ hh,
        SInv_mapQs completeQ QInv_completeQ _ hr, hi⟩
  | start =>
      exact ⟨SInv_mapQs initQ QInv_initQ _ hh, SInv_mapQs initQ QInv_initQ _ hr, hi⟩
  | steal =>
      exact ⟨QInv_rebalanceGroup _ hh, QInv_rebalanceGroup _ hr, hi⟩
  | growHigh => exact ⟨QInv_growGroup _ hh, hr, hi⟩
  | growReg => exact ⟨hh, QInv_growGroup _ hr, hi⟩
  | shrinkHigh => exact ⟨QInv_shrinkGroup _ hh, hr, hi⟩
  | shrinkReg => exact ⟨hh, QInv_shrinkGroup _ hr, hi⟩
  | ungraceHigh i => exact ⟨QInv_ungraceAt _ i hh, hr, hi⟩
  | ungraceReg i => exact ⟨hh, QInv_ungraceAt _ i hr, hi⟩

theorem SInv_reachable (s : Sched) (hs : Reachable s) : SInv s := by
  induction hs with
  | refl => exact SInv_initSched
  | tail _ hstep ih => exact SInv_step _ _ ih hstep

/-! ### Group lengths under each operation -/

theorem qAt_map (f : QState → QState) (g : List QState) (i : ℕ)
    (h : i < g.length) : qAt (g.map f) i = f (qAt g i) := by
  induction g generalizing i with
  | nil => exact absurd h (by simp)
  | cons q rest ih =>
      cases i with
      | zero => rfl
      | succ n => simpa [qAt] using ih n (by simpa using h)

theorem length_routeGroup (g : List QState) (v : ℚ) :
    (routeGroup g v).length = g.length := updAt_length g (minSumIdx g) _

theorem length_rebalanceGroup (g : List QState) :
    (rebalanceGroup g).length = g.length := by
  rcases rebalanceGroup_cases g with heq | ⟨_, _, _, _, v, _, heq⟩
  · rw [heq]
  · rw [heq, updAt_length, updAt_length]

theorem length_shrinkGroup (g : List QState) (h : 1 ≤ g.length) :
    1 ≤ (shrinkGroup g).length := by
  unfold shrinkGroup
  split
  · exact h
  · next hgt =>
      split
      · rw [updAt_length, List.length_dropLast]
        omega
      · rw [List.length_dropLast]
        omega

theorem shrinkGroup_small (g : List QState) (h : g.length ≤ 1) :
    shrinkGroup g = g := by
  unfold shrinkGroup
  rw [if_pos h]

theorem length_ungraceAt (g : List QState) (i : ℕ) :
    (ungraceAt g i).length = g.length := updAt_length g i _

/-- Both group-membership lists keep at least one queue across every step. -/
theorem groupFloor_step (s s2 : Sched) (h : Step s s2)
    (hh : 1 ≤ s.highQs.length) (hr : 1 ≤ s.regQs.length) :
    1 ≤ s2.highQs.length ∧ 1 ≤ s2.regQs.length := by
  cases h with
  | enqueue n hn b => exact ⟨hh, hr⟩
  | admitting =>
      cases hint : s.intake with
      | nil => rw [admitTask_nil s hint]; exact ⟨hh, hr⟩
      | cons t rest =>
          by_cases hb : t.isHigh = true
          · rw [admitTask_cons_high s t rest hint hb]
            exact ⟨by simpa [length_routeGroup] using hh, hr⟩
          · rw [admitTask_cons_normal s t rest hint (by simpa using hb)]
            exact ⟨hh, by simpa [length_routeGroup] using hr⟩
  | unpause => exact ⟨hh, hr⟩
  | clock =>
      unfold tick
      split
      · exact ⟨hh, hr⟩
      · exact ⟨by simpa using hh, by simpa using hr⟩
  | complete => exact ⟨by simpa [completePass] using hh, by simpa [completePass] using hr⟩
  | start => exact ⟨by simpa [initPass] using hh, by simpa [initPass] using hr⟩
  | steal =>
      exact ⟨by simpa [rebalance, length_rebalanceGroup] using hh,
        by simpa [rebalance, length_rebalanceGroup] using hr⟩
  | growHigh => exact ⟨by simp [growGroup], hr⟩
  | growReg => exact ⟨hh, by simp [growGroup]⟩
  | shrinkHigh => exact ⟨length_shrinkGroup _ hh, hr⟩
  | shrinkReg => exact ⟨hh, length_shrinkGroup _ hr⟩
  | ungraceHigh i => exact ⟨by simpa [length_ungraceAt] using hh, hr⟩
  | ungraceReg i => exact ⟨hh, by simpa [length_ungraceAt] using hr⟩

theorem groupFloor_reachable (s : Sched) (hs : Reachable s) :
    1 ≤ s.highQs.length ∧ 1 ≤ s.regQs.length := by
  induction hs with
  | refl => exact ⟨by simp [initSched], by simp [initSched]⟩
  | tail _ hstep ih => exact groupFloor_step _ _ hstep ih.1 ih.2

/-! ### A zero-valued head blocks its queue -/

theorem Blocked_tickQ (q : QState) (h : Blocked q) : tickQ q = q := by
  obtain ⟨hh, hp, hd⟩ := h
  unfold tickQ
  rw [if_neg]
  · cases q with
    | mk pe pr idur gr =>
        simp only at hp
        rw [hp]
  · rintro ⟨-, hpos⟩
    rw [hp] at hpos
    exact lt_irrefl 0 hpos

theorem Blocked_completeQ (q : QState) (h : Blocked q) : completeQ q = q := by
  obtain ⟨hh, hp, hd⟩ := h
  unfold completeQ
  rw [if_neg]
  rintro ⟨-, -, hpos⟩
  rw [hd] at hpos
  exact lt_irrefl 0 hpos

theorem Blocked_initQ (q : QState) (h : Blocked q) : initQ q = q := by
  obtain ⟨hh, hp, hd⟩ := h
  cases hpend : q.pending with
  | nil => rw [hpend] at hh; simp at hh
  | cons a t =>
      have ha : a = 0 := by
        rw [hpend] at hh
        simpa using hh
      unfold initQ
      rw [if_pos ⟨by rw [hpend]; simp, hp, hd⟩]
      cases q with
      | mk pe pr idur gr =>
          simp only at hpend hp hd
          rw [hpend, ha, hp, hd]
          rfl

theorem Blocked_append (q : QState) (v : ℚ) (h : Blocked q) :
    Blocked { q with pending := q.pending ++ [v] } := by
  obtain ⟨hh, hp, hd⟩ := h
  cases hpend : q.pending with
  | nil => rw [hpend] at hh; simp at hh
  | cons a t =>
      refine ⟨?_, hp, hd⟩
      rw [hpend] at hh
      simpa using hh

theorem Blocked_routeGroup (g : List QState) (v : ℚ) (i : ℕ)
    (hi : i < g.length) (h : Blocked (qAt g i)) :
    Blocked (qAt (routeGroup g v) i) := by
  by_cases he : i = minSumIdx g
  · rw [routeGroup, he, qAt_updAt_self _ _ _ (he ▸ hi)]
    exact Blocked_append _ v (he ▸ h)
  · rw [routeGroup, qAt_updAt_ne _ _ _ _ he]
    exact h

theorem Blocked_rebalanceGroup (g : List QState) (i : ℕ) (hi : i < g.length)
    (h : Blocked (qAt g i)) : Blocked (qAt (rebalanceGroup g) i) := by
  rcases rebalanceGroup_cases g with heq | ⟨hidle, hbusy, hlen, _, v, hLast, heq⟩
  · rw [heq]; exact h
  · rw [heq]
    have hispec := idleHead_spec g hidle
    have hne_i0 : i ≠ (idleIdxs g).headI := by
      intro hcontra
      obtain ⟨hh2, -, -⟩ := h
      have hempty : (qAt g i).pending = [] := by
        rw [hcontra]
        exact hispec.2.1.1
      rw [hempty] at hh2
      simp at hh2
    rw [qAt_updAt_ne _ _ _ _ hne_i0]
    by_cases hb : i = (busiestPair g).1
    · rw [hb, qAt_updAt_self _ _ _ (hb ▸ hi)]
      obtain ⟨hh, hp, hd⟩ := h
      rw [hb] at hh hp hd
      refine ⟨?_, hp, hd⟩
      cases hpend : (qAt g (busiestPair g).1).pending with
      | nil => rw [hpend] at hh; simp at hh
      | cons a t =>
          rw [hpend] at hh hlen
          cases t with
          | nil => simp at hlen
          | cons b u =>
              have ha : a = 0 := by simpa using hh
              simp [ha]
    · rw [qAt_updAt_ne _ _ _ _ hb]
      exact h

/-- Every non-resize step keeps a blocked queue blocked at its position, in
either group. -/
theorem Blocked_stepNR (s s2 : Sched) (h : StepNR s s2) :
    (∀ i, i < s.highQs.length → Blocked (qAt s.highQs i) →
      i < s2.highQs.length ∧ Blocked (qAt s2.highQs i)) ∧
    (∀ i, i < s.regQs.length → Blocked (qAt s.regQs i) →
      i < s2.regQs.length ∧ Blocked (qAt s2.regQs i)) := by
  cases h with
  | enqueue n hn b => exact ⟨fun i hi hB => ⟨hi, hB⟩, fun i hi hB => ⟨hi, hB⟩⟩
  | admitting =>
      cases hint : s.intake with
      | nil =>
          rw [admitTask_nil s hint]
          exact ⟨fun i hi hB => ⟨hi, hB⟩, fun i hi hB => ⟨hi, hB⟩⟩
      | cons t rest =>
          by_cases hb : t.isHigh = true
          · rw [admitTask_cons_high s t rest hint hb]
            exact ⟨fun i hi hB => ⟨by simpa [length_routeGroup] using hi,
              Blocked_routeGroup _ _ i hi hB⟩, fun i hi hB => ⟨hi, hB⟩⟩
          · rw [admitTask_cons_normal s t rest hint (by simpa using hb)]
            exact ⟨fun i hi hB => ⟨hi, hB⟩, fun i hi hB =>
              ⟨by simpa [length_routeGroup] using hi, Blocked_routeGroup _ _ i hi hB⟩⟩
  | unpause => exact ⟨fun i hi hB => ⟨hi, hB⟩, fun i hi hB => ⟨hi, hB⟩⟩
  | clock =>
      unfold tick
      split
      · exact ⟨fun i hi hB => ⟨hi, hB⟩, fun i hi hB => ⟨hi, hB⟩⟩
      · constructor
        · intro i hi hB
          refine ⟨by simpa using hi, ?_⟩
          show Blocked (qAt (s.highQs.map tickQ) i)
          rw [qAt_map tickQ _ i hi, Blocked_tickQ _ hB]
          exact hB
        · intro i hi hB
          refine ⟨by simpa using hi, ?_⟩
          show Blocked (qAt (s.regQs.map tickQ) i)
          rw [qAt_map tickQ _ i hi, Blocked_tickQ _ hB]
          exact hB
  | complete =>
      constructor
      · intro i hi hB
        refine ⟨by simpa [completePass] using hi, ?_⟩
        show Blocked (qAt (s.highQs.map completeQ) i)
        rw [qAt_map completeQ _ i hi, Blocked_completeQ _ hB]
        exact hB
      · intro i hi hB
        refine ⟨by simpa [completePass] using hi, ?_⟩
        show Blocked (qAt (s.regQs.map completeQ) i)
        rw [qAt_map completeQ _ i hi, Blocked_completeQ _ hB]
        exact hB
  | start =>
      constructor
      · intro i hi hB
        refine ⟨by simpa [initPass] using hi, ?_⟩
        show Blocked (qAt (s.highQs.map initQ) i)
        rw [qAt_map initQ _ i hi, Blocked_initQ _ hB]
        exact hB
      · intro i hi hB
        refine ⟨by simpa [initPass] using hi, ?_⟩
        show Blocked (qAt (s.regQs.map initQ) i)
        rw [qAt_map initQ _ i hi, Blocked_initQ _ hB]
        exact hB
  | steal =>
      constructor
      · intro i hi hB
        exact ⟨by simpa [rebalance, length_rebalanceGroup] using hi,
          Blocked_rebalanceGroup _ i hi hB⟩
      · intro i hi hB
        exact ⟨by simpa [rebalance, length_rebalanceGroup] using hi,
          Blocked_rebalanceGroup _ i hi hB⟩

theorem Blocked_reachNR (s s2 : Sched) (h : Relation.ReflTransGen StepNR s s2)
    (i : ℕ) (hi : i < s.highQs.length) (hB : Blocked (qAt s.highQs i)) :
    i < s2.highQs.length ∧ Blocked (qAt s2.highQs i) := by
  induction h with
  | refl => exact ⟨hi, hB⟩
  | tail _ hstep ih => exact (Blocked_stepNR _ _ hstep).1 i ih.1 ih.2

/-! ### Claim theorems -/

/-- Claim C1: `admit()` is a no-op on an empty intake queue; otherwise it
removes the head task, selects the group by the task's type, appends the
task's value to the tail of the pending sequence of the group's queue with
the smallest pending sum (ties to the first queue in group order), leaves
every other queue and the other group unchanged, and activates the global
admission pause; and admitting values 10 then 50 into a two-queue group of
empty queues puts 10 in the first queue and 50 in the second. -/
theorem C1_admit_least_loaded :
    (∀ s : Sched, s.intake = [] → admitTask s = s) ∧
    (∀ (s : Sched) (t : Task) (rest : List Task), s.intake = t :: rest →
      t.isHigh = true → s.highQs ≠ [] →
      (admitTask s).intake = rest ∧ (admitTask s).paused = true ∧
      (admitTask s).regQs = s.regQs ∧
      minSumIdx s.highQs < s.highQs.length ∧
      qAt (admitTask s).highQs (minSumIdx s.highQs) =
        { qAt s.highQs (minSumIdx s.highQs) with
            pending := (qAt s.highQs (minSumIdx s.highQs)).pending ++ [t.value] } ∧
      (∀ j, j ≠ minSumIdx s.highQs → qAt (admitTask s).highQs j = qAt s.highQs j) ∧
      (∀ j, j < s.highQs.length →
        sumAt s.highQs (minSumIdx s.highQs) ≤ sumAt s.highQs j) ∧
      (∀ j, j < minSumIdx s.highQs →
        sumAt s.highQs (minSumIdx s.highQs) < sumAt s.highQs j)) ∧
    (∀ (s : Sched) (t : Task) (rest : List Task), s.intake = t :: rest →
      t.isHigh = false → s.regQs ≠ [] →
      (admitTask s).intake = rest ∧ (admitTask s).paused = true ∧
      (admitTask s).highQs = s.highQs ∧
      minSumIdx s.regQs < s.regQs.length ∧
      qAt (admitTask s).regQs (minSumIdx s.regQs) =
        { qAt s.regQs (minSumIdx s.regQs) with
            pending := (qAt s.regQs (minSumIdx s.regQs)).pending ++ [t.value] } ∧
      (∀ j, j ≠ minSumIdx s.regQs → qAt (admitTask s).regQs j = qAt s.regQs j) ∧
      (∀ j, j < s.regQs.length →
        sumAt s.regQs (minSumIdx s.regQs) ≤ sumAt s.regQs j) ∧
      (∀ j, j < minSumIdx s.regQs →
        sumAt s.regQs (minSumIdx s.regQs) < sumAt s.regQs j)) ∧
    admitTask (admitTask ⟨[⟨10, true⟩, ⟨50, true⟩], [default, default], [default], false⟩) =
      ⟨[], [⟨[10], 0, 0, false⟩, ⟨[50], 0, 0, false⟩], [default], true⟩ := by
  refine ⟨admitTask_nil, ?_, ?_, by with_unfolding_all decide⟩
  · intro s t rest hint hb hg
    obtain ⟨hlt, hle, hfst⟩ := minSumIdx_spec s.highQs hg
    rw [admitTask_cons_high s t rest hint hb]
    exact ⟨rfl, rfl, rfl, hlt,
      qAt_updAt_self _ _ _ hlt, fun j hj => qAt_updAt_ne _ _ _ _ hj, hle, hfst⟩
  · intro s t rest hint hb hg
    obtain ⟨hlt, hle, hfst⟩ := minSumIdx_spec s.regQs hg
    rw [admitTask_cons_normal s t rest hint hb]
    exact ⟨rfl, rfl, rfl, hlt,
      qAt_updAt_self _ _ _ hlt, fun j hj => qAt_updAt_ne _ _ _ _ hj, hle, hfst⟩

theorem C1_admit_least_loaded_witness :
    admitTask ⟨[], [default], [default], false⟩ = ⟨[], [default], [default], false⟩ :=
  C1_admit_least_loaded.1 ⟨[], [default], [default], false⟩ rfl

/-- Claim C5: the completion step removes exactly the head of `pending` and
resets the recorded duration precisely when the queue is nonempty with
progress 0 and a positive recorded duration — under any other condition it
changes nothing, and in particular a queue with recorded duration 0 (a
just-admitted, not yet initialized head) is never popped; the
initialization step, when the queue is nonempty with progress 0 and
recorded duration 0, sets both progress and the recorded duration to the
head pending value, so a freshly exposed head starts at its full
duration. -/
theorem C5_completion_initialization :
    (∀ q : QState, q.pending ≠ [] → q.progress = 0 → 0 < q.initialDuration →
      completeQ q = { q with pending := q.pending.tail, initialDuration := 0 }) ∧
    (∀ q : QState, ¬(q.pending ≠ [] ∧ q.progress = 0 ∧ 0 < q.initialDuration) →
      completeQ q = q) ∧
    (∀ q : QState, q.initialDuration = 0 → completeQ q = q) ∧
    (∀ q : QState, q.pending ≠ [] → q.progress = 0 → q.initialDuration = 0 →
      initQ q = { q with progress := q.pending.headI,
                         initialDuration := q.pending.headI }) ∧
    (∀ q : QState, ¬(q.pending ≠ [] ∧ q.progress = 0 ∧ q.initialDuration = 0) →
      initQ q = q) := by
  refine ⟨?_, ?_, ?_, ?_, ?_⟩
  · intro q h1 h2 h3
    unfold completeQ
    rw [if_pos ⟨by simpa [List.length_pos] using h1, h2, h3⟩]
  · intro q h
    unfold completeQ
    rw [if_neg]
    intro hc
    exact h ⟨by simpa [List.length_pos] using hc.1, hc.2.1, hc.2.2⟩
  · intro q h
    unfold completeQ
    rw [if_neg]
    rintro ⟨-, -, hpos⟩
    rw [h] at hpos
    exact lt_irrefl 0 hpos
  · intro q h1 h2 h3
    unfold initQ
    rw [if_pos ⟨by simpa [List.length_pos] using h1, h2, h3⟩]
  · intro q h
    unfold initQ
    rw [if_neg]
    intro hc
    exact h ⟨by simpa [List.length_pos] using hc.1, hc.2.1, hc.2.2⟩

theorem C5_completion_initialization_witness :
    completeQ ⟨[7, 3], 0, 7, false⟩ = ⟨[3], 0, 0, false⟩ :=
  C5_completion_initialization.1 ⟨[7, 3], 0, 7, false⟩ (by simp) rfl
    (by norm_num)

/-- Claim C7: in every reachable scheduler state every queue of either
group satisfies `0 ≤ progress ≤ initialDuration`, and its recorded initial
duration is 0 exactly when it has no initialized in-flight head (no nonzero
recorded duration matching the value at the head of its pending
sequence). -/
theorem C7_bounded_progress (s : Sched) (hs : Reachable s) :
    ∀ q : QState, q ∈ s.highQs ∨ q ∈ s.regQs →
      0 ≤ q.progress ∧ q.progress ≤ q.initialDuration ∧
      (q.initialDuration = 0 ↔ ¬ HasInFlight q) := by
  have hinv := SInv_reachable s hs
  intro q hq
  have hqi : QInv q := by
    rcases hq with h | h
    · exact hinv.1 q h
    · exact hinv.2.1 q h
  obtain ⟨hvals, h0, hle, hhead⟩ := hqi
  refine ⟨h0, hle, ?_, ?_⟩
  · intro hz hIF
    exact hIF.1 hz
  · intro hnIF
    by_contra hz
    rcases hhead hz with ⟨t, ht⟩
    exact hnIF ⟨hz, by rw [ht]; rfl⟩

theorem C7_bounded_progress_witness :
    0 ≤ (default : QState).progress ∧
    (default : QState).progress ≤ (default : QState).initialDuration ∧
    ((default : QState).initialDuration = 0 ↔ ¬ HasInFlight (default : QState)) :=
  C7_bounded_progress initSched Relation.ReflTransGen.refl (default : QState)
    (Or.inl (List.mem_cons_self _ _))

/-- Claim C9: `shrinkGroup` on a group of size at most 1 is a no-op, and in
every reachable state both the high-priority and the regular-priority group
contain at least one queue. -/
theorem C9_group_floor :
    (∀ g : List QState, g.length ≤ 1 → shrinkGroup g = g) ∧
    (∀ s : Sched, Reachable s → 1 ≤ s.highQs.length ∧ 1 ≤ s.regQs.length) :=
  ⟨shrinkGroup_small, groupFloor_reachable⟩

theorem C9_group_floor_witness :
    shrinkGroup [default] = [default] ∧
    1 ≤ initSched.highQs.length ∧ 1 ≤ initSched.regQs.length :=
  ⟨C9_group_floor.1 [default] (by simp),
    C9_group_floor.2 initSched Relation.ReflTransGen.refl⟩

/-- Claim C8: a queue whose head was initialized with
`initialDuration = progress = 40`, with the pause inactive and its pending
sequence nonempty throughout, reaches progress exactly 0 after exactly 100
decrement ticks (0.4 per tick, rounded to two decimals, clamped at 0) — at
every earlier tick count the progress is still nonzero — and the next
completion pass then removes the head task. -/
theorem C8_hundred_ticks :
    (tickQ^[100] ⟨[40], 40, 40, false⟩).progress = 0 ∧
    (∀ k, k < 100 → (tickQ^[k] ⟨[40], 40, 40, false⟩).progress ≠ 0) ∧
    completeQ (tickQ^[100] ⟨[40], 40, 40, false⟩) =
      ⟨([40] : List ℚ).tail, 0, 0, false⟩ := by
  refine ⟨?_, ?_, ?_⟩ <;> with_unfolding_all decide

theorem C8_hundred_ticks_witness :
    (tickQ^[99] ⟨[40], 40, 40, false⟩).progress ≠ 0 :=
  C8_hundred_ticks.2.1 99 (by norm_num)

/-- Claim C10: a zero-valued head task permanently blocks its queue: a
queue whose head pending value is 0 with progress and recorded duration 0
is left exactly unchanged by the initialization, completion and decrement
steps, stays blocked (head still the zero value) at its position in either
group under any sequence of non-resize scheduler steps, and a task of value
0 is producible by the generator (values are naturals below 200). -/
theorem C10_zero_head_blocks :
    (∀ q : QState, q.pending.head? = some 0 → q.progress = 0 →
      q.initialDuration = 0 → initQ q = q ∧ completeQ q = q ∧ tickQ q = q) ∧
    (∀ s s2 : Sched, Relation.ReflTransGen StepNR s s2 →
      ∀ i, i < s.highQs.length → Blocked (qAt s.highQs i) →
        i < s2.highQs.length ∧ (qAt s2.highQs i).pending.head? = some 0 ∧
        Blocked (qAt s2.highQs i)) ∧
    (∀ s : Sched, Step s { s with intake := s.intake ++ [⟨((0 : ℕ) : ℚ), true⟩] }) := by
  refine ⟨?_, ?_, ?_⟩
  · intro q h1 h2 h3
    exact ⟨Blocked_initQ q ⟨h1, h2, h3⟩, Blocked_completeQ q ⟨h1, h2, h3⟩,
      Blocked_tickQ q ⟨h1, h2, h3⟩⟩
  · intro s s2 h i hi hB
    obtain ⟨hi2, hB2⟩ := Blocked_reachNR s s2 h i hi hB
    exact ⟨hi2, hB2.1, hB2⟩
  · intro s
    exact Step.enqueue s 0 (by omega) true

theorem C10_zero_head_blocks_witness :
    initQ ⟨[0, 5], 0, 0, false⟩ = ⟨[0, 5], 0, 0, false⟩ ∧
    completeQ ⟨[0, 5], 0, 0, false⟩ = ⟨[0, 5], 0, 0, false⟩ ∧
    tickQ ⟨[0, 5], 0, 0, false⟩ = ⟨[0, 5], 0, 0, false⟩ :=
  C10_zero_head_blocks.1 ⟨[0, 5], 0, 0, false⟩ rfl rfl rfl

theorem rebalanceGroup_eq_of (g : List QState)
    (h1 : idleIdxs g ≠ []) (h2 : busyIdxs g ≠ [])
    (h3 : 1 < (qAt g (busiestPair g).1).pending.length)
    (h4 : 0 < (busiestPair g).2) (v : ℚ)
    (hv : (qAt g (busiestPair g).1).pending.getLast? = some v) :
    rebalanceGroup g =
      updAt (updAt g (busiestPair g).1
          (fun q => { q with pending := q.pending.dropLast }))
        (idleIdxs g).headI (fun q => { q with pending := v :: q.pending }) := by
  unfold rebalanceGroup
  rw [if_pos ⟨h1, h2⟩, if_pos ⟨h3, h4⟩, hv]

/-- Claim C3: when the idle and busy sets of a group are both nonempty and
the busiest queue (argmax of pending sum over the busy queues, ties to the
first in group order) keeps more than one pending value with a positive
sum, the rebalancing pass removes exactly that queue's last pending value —
never its in-flight head, whose position is preserved — and prepends it to
the front of the first idle queue in group order, leaving every other queue
unchanged; a queue whose pending sequence has exactly one element is never
popped; and with X idle and Y holding [30, 40, 50] one pass yields X = [50]
and Y = [30, 40]. -/
theorem C3_rebalance_steals_last :
    (∀ g : List QState,
      idleIdxs g ≠ [] → busyIdxs g ≠ [] →
      1 < (qAt g (busiestPair g).1).pending.length → 0 < (busiestPair g).2 →
      ∃ v t, (qAt g (busiestPair g).1).pending = t ++ [v] ∧ t ≠ [] ∧
        (busiestPair g).1 < g.length ∧ isBusy (qAt g (busiestPair g).1) ∧
        (∀ j, j < g.length → isBusy (qAt g j) →
          sumAt g j ≤ sumAt g (busiestPair g).1) ∧
        (∀ j, j < (busiestPair g).1 → isBusy (qAt g j) →
          sumAt g j < sumAt g (busiestPair g).1) ∧
        (idleIdxs g).headI < g.length ∧ isIdle (qAt g (idleIdxs g).headI) ∧
        (∀ j, j < (idleIdxs g).headI → ¬ isIdle (qAt g j)) ∧
        (qAt (rebalanceGroup g) (busiestPair g).1).pending = t ∧
        (qAt (rebalanceGroup g) (busiestPair g).1).pending.head? =
          (qAt g (busiestPair g).1).pending.head? ∧
        (qAt (rebalanceGroup g) (idleIdxs g).headI).pending =
          v :: (qAt g (idleIdxs g).headI).pending ∧
        (∀ j, j ≠ (busiestPair g).1 → j ≠ (idleIdxs g).headI →
          qAt (rebalanceGroup g) j = qAt g j)) ∧
    (∀ (g : List QState) (i : ℕ), (qAt g i).pending.length = 1 →
      (qAt (rebalanceGroup g) i).pending = (qAt g i).pending) ∧
    rebalanceGroup [⟨[], 0, 0, false⟩, ⟨[30, 40, 50], 30, 30, false⟩] =
      [⟨[50], 0, 0, false⟩, ⟨[30, 40], 30, 30, false⟩] := by
  refine ⟨?_, ?_, by with_unfolding_all decide⟩
  · intro g h1 h2 h3 h4
    have hne : (qAt g (busiestPair g).1).pending ≠ [] := by
      intro h
      rw [h] at h3
      simp at h3
    cases hv : (qAt g (busiestPair g).1).pending.getLast? with
    | none =>
        rw [List.getLast?_eq_none_iff] at hv
        exact absurd hv hne
    | some v =>
        obtain ⟨t, ht⟩ := List.getLast?_eq_some_iff.mp hv
        have htne : t ≠ [] := by
          intro h0
          rw [ht, h0] at h3
          simp at h3
        have hbspec := busiestPair_spec g h2
        have hbmem := (mem_busyIdxs g _).1 hbspec.1
        have hispec := idleHead_spec g h1
        have hne_bi : (idleIdxs g).headI ≠ (busiestPair g).1 := by
          intro hcontra
          have hemp := hispec.2.1.1
          rw [hcontra] at hemp
          rw [hemp] at h3
          simp at h3
        have heq := rebalanceGroup_eq_of g h1 h2 h3 h4 v hv
        have hlt_outer : (idleIdxs g).headI <
            (updAt g (busiestPair g).1
              (fun q => { q with pending := q.pending.dropLast })).length := by
          rw [updAt_length]
          exact hispec.1
        have hres_b : (qAt (rebalanceGroup g) (busiestPair g).1).pending = t := by
          rw [heq, qAt_updAt_ne _ _ _ _ (Ne.symm hne_bi),
            qAt_updAt_self _ _ _ hbmem.1]
          show (qAt g (busiestPair g).1).pending.dropLast = t
          rw [ht]
          exact List.dropLast_concat
        refine ⟨v, t, ht, htne, hbmem.1, hbmem.2, ?_, ?_, hispec.1, hispec.2.1,
          hispec.2.2, hres_b, ?_, ?_, ?_⟩
        · intro j hj hbj
          exact hbspec.2.2.1 j ((mem_busyIdxs g j).2 ⟨hj, hbj⟩)
        · intro j hj hbj
          exact hbspec.2.2.2 j
            ((mem_busyIdxs g j).2 ⟨lt_trans hj hbmem.1, hbj⟩) hj
        · rw [hres_b, ht]
          cases t with
          | nil => exact absurd rfl htne
          | cons a u => rfl
        · rw [heq, qAt_updAt_self _ _ _ hlt_outer,
            qAt_updAt_ne _ _ _ _ hne_bi]
        · intro j hjb hji
          rw [heq, qAt_updAt_ne _ _ _ _ hji, qAt_updAt_ne _ _ _ _ hjb]
  · intro g i hlen1
    rcases rebalanceGroup_cases g with heq | ⟨h1, h2, h3, h4, v, hv, heq⟩
    · rw [heq]
    · rw [heq]
      have hispec := idleHead_spec g h1
      have hne_i0 : i ≠ (idleIdxs g).headI := by
        intro hc
        have hemp := hispec.2.1.1
        rw [← hc] at hemp
        rw [hemp] at hlen1
        simp at hlen1
      have hne_b : i ≠ (busiestPair g).1 := by
        intro hc
        rw [← hc] at h3
        rw [hlen1] at h3
        exact lt_irrefl 1 h3
      rw [qAt_updAt_ne _ _ _ _ hne_i0, qAt_updAt_ne _ _ _ _ hne_b]

theorem C3_rebalance_steals_last_witness :
    ∃ v t, (qAt [⟨[], 0, 0, false⟩, ⟨[30, 40, 50], 30, 30, false⟩]
      (busiestPair [⟨[], 0, 0, false⟩, ⟨[30, 40, 50], 30, 30, false⟩]).1).pending =
      t ++ [v] := by
  obtain ⟨v, t, ht, -⟩ :=
    C3_rebalance_steals_last.1 [⟨[], 0, 0, false⟩, ⟨[30, 40, 50], 30, 30, false⟩]
      (by with_unfolding_all decide) (by with_unfolding_all decide)
      (by with_unfolding_all decide) (by with_unfolding_all decide)
  exact ⟨v, t, ht⟩

/-- Claim C2 counterexample: shrinking `[r1, r2]` where `r2` has an
in-flight head of original value 7 at remaining progress 5 and waiting
values [10, 20] beyond that head extends `r1.pending` by
`[5, 7, 10, 20]` — the whole pending array including the head's original
value, duplicating the in-flight work — not by `[5, 10, 20]` as the claim
states. -/
theorem C2_shrink_counterexample :
    (shrinkGroup [⟨[], 0, 0, false⟩, ⟨[7, 10, 20], 5, 7, false⟩]).map
      (fun q => q.pending) = [[5, 7, 10, 20]] ∧
    ([[5, 7, 10, 20]] : List (List ℚ)) ≠ [[5, 10, 20]] := by
  constructor <;> with_unfolding_all decide

/-- Claim C2 (amended): shrinking a group with more than one queue whose
last queue holds pending values or positive progress appends to the
least-loaded remaining queue (min pending sum, ties to the first in group
order), in order, the removed queue's remaining in-flight progress (when
positive) followed by its ENTIRE pending sequence — the in-flight head's
original value included, not only the waiting values beyond it — so the
post-shrink total pending of the group equals the pre-shrink total plus the
redistributed in-flight remainder (the head's value is retained while its
remainder is re-added); on the state where `r2.pending = [10, 20]` with the
value 10 itself being the in-flight head at progress 5, `r1.pending`
becomes `[5, 10, 20]`. -/
theorem C2_shrink_moves_all_pending :
    (∀ g : List QState, 2 ≤ g.length →
      ((qAt g (g.length - 1)).pending ≠ [] ∨ 0 < (qAt g (g.length - 1)).progress) →
      shrinkGroup g =
        updAt g.dropLast (minSumIdx g.dropLast)
          (fun q => { q with pending := q.pending ++
            ((if (qAt g (g.length - 1)).progress > 0
              then [(qAt g (g.length - 1)).progress] else []) ++
              (qAt g (g.length - 1)).pending) }) ∧
      minSumIdx g.dropLast < g.dropLast.length ∧
      (∀ j, j < g.dropLast.length →
        sumAt g.dropLast (minSumIdx g.dropLast) ≤ sumAt g.dropLast j) ∧
      (∀ j, j < minSumIdx g.dropLast →
        sumAt g.dropLast (minSumIdx g.dropLast) < sumAt g.dropLast j) ∧
      totalPending (shrinkGroup g) =
        totalPending g + (if 0 < (qAt g (g.length - 1)).progress
          then (qAt g (g.length - 1)).progress else 0)) ∧
    (shrinkGroup [⟨[], 0, 0, false⟩, ⟨[10, 20], 5, 10, false⟩]).map
      (fun q => q.pending) = [[5, 10, 20]] := by
  refine ⟨?_, by with_unfolding_all decide⟩
  intro g hlen hguard
  have hne : g ≠ [] := by
    intro h
    rw [h] at hlen
    simp at hlen
  have hrne : g.dropLast ≠ [] := by
    intro h
    have hl := List.length_dropLast g
    rw [h] at hl
    simp at hl
    omega
  obtain ⟨hlt, hle, hfst⟩ := minSumIdx_spec g.dropLast hrne
  have heq : shrinkGroup g =
      updAt g.dropLast (minSumIdx g.dropLast)
        (fun q => { q with pending := q.pending ++
          ((if (qAt g (g.length - 1)).progress > 0
            then [(qAt g (g.length - 1)).progress] else []) ++
            (qAt g (g.length - 1)).pending) }) := by
    unfold shrinkGroup
    rw [if_neg (by omega), if_pos hguard]
  refine ⟨heq, hlt, hle, hfst, ?_⟩
  rw [heq, totalPending_updAt_append _ _ _ hlt]
  have hdecomp : totalPending g =
      totalPending g.dropLast + sumPending (qAt g (g.length - 1)) := by
    conv_lhs => rw [← dropLast_append_qAt g hne]
    rw [totalPending_append]
    simp [totalPending]
  rw [hdecomp, List.sum_append]
  have hopt : ((if (qAt g (g.length - 1)).progress > 0
      then [(qAt g (g.length - 1)).progress] else []) : List ℚ).sum =
      (if 0 < (qAt g (g.length - 1)).progress
        then (qAt g (g.length - 1)).progress else 0) := by
    split
    · simp
    · simp
  rw [hopt]
  show totalPending g.dropLast + (_ + (qAt g (g.length - 1)).pending.sum) = _
  simp only [sumPending]
  ring

theorem C2_shrink_moves_all_pending_witness :
    totalPending (shrinkGroup [⟨[], 0, 0, false⟩, ⟨[7, 10, 20], 5, 7, false⟩]) =
      totalPending [⟨[], 0, 0, false⟩, ⟨[7, 10, 20], 5, 7, false⟩] + 5 := by
  have h := C2_shrink_moves_all_pending.1
    [⟨[], 0, 0, false⟩, ⟨[7, 10, 20], 5, 7, false⟩]
    (by with_unfolding_all decide) (by with_unfolding_all decide)
  exact h.2.2.2.2.trans (by with_unfolding_all decide)

/-- Claim C4 counterexample: with the global admission pause active, a
queue with pending `[10]` and progress 7 keeps progress 7 after a Progress
Clock tick — the tick is a no-op during the pause — whereas the claim says
progress is set to 0. -/
theorem C4_pause_counterexample :
    tick ⟨[], [⟨[10], 7, 10, false⟩], [default, default, default, default], true⟩ =
      ⟨[], [⟨[10], 7, 10, false⟩], [default, default, default, default], true⟩ ∧
    (qAt (tick ⟨[], [⟨[10], 7, 10, false⟩],
      [default, default, default, default], true⟩).highQs 0).progress = 7 ∧
    (7 : ℚ) ≠ 0 := by
  refine ⟨?_, ?_, ?_⟩ <;> with_unfolding_all decide

/-- Claim C4 (amended): while the global admission pause is active a
Progress Clock tick changes nothing at all (progress is NOT reset to 0);
with the pause inactive, every queue in both groups is updated: if its
pending sequence is empty or its progress is not positive the progress is
set to 0, and otherwise the progress becomes
`Math.max(0, round2(progress − 0.4))`, with pending, initial duration and
grace state untouched in either case. -/
theorem C4_tick_decrement :
    (∀ s : Sched, s.paused = true → tick s = s) ∧
    (∀ s : Sched, s.paused = false → ∀ i, i < s.highQs.length →
      qAt (tick s).highQs i = tickQ (qAt s.highQs i)) ∧
    (∀ s : Sched, s.paused = false → ∀ i, i < s.regQs.length →
      qAt (tick s).regQs i = tickQ (qAt s.regQs i)) ∧
    (∀ q : QState, q.pending = [] ∨ q.progress = 0 →
      (tickQ q).progress = 0 ∧ (tickQ q).pending = q.pending ∧
      (tickQ q).initialDuration = q.initialDuration ∧
      (tickQ q).inGrace = q.inGrace) ∧
    (∀ q : QState, q.pending ≠ [] → 0 < q.progress →
      (tickQ q).progress = jsMax 0 (round2 (q.progress - 2 / 5)) ∧
      (tickQ q).pending = q.pending ∧
      (tickQ q).initialDuration = q.initialDuration ∧
      (tickQ q).inGrace = q.inGrace) := by
  refine ⟨?_, ?_, ?_, ?_, ?_⟩
  · intro s h
    unfold tick
    rw [if_pos h]
  · intro s h i hi
    unfold tick
    rw [if_neg (by simp [h])]
    exact qAt_map tickQ _ i hi
  · intro s h i hi
    unfold tick
    rw [if_neg (by simp [h])]
    exact qAt_map tickQ _ i hi
  · intro q h
    unfold tickQ
    rw [if_neg]
    · exact ⟨rfl, rfl, rfl, rfl⟩
    · rintro ⟨hl, hp⟩
      rcases h with h | h
      · rw [h] at hl
        simp at hl
      · rw [h] at hp
        exact lt_irrefl 0 hp
  · intro q h1 h2
    unfold tickQ
    rw [if_pos ⟨by simpa [List.length_pos] using h1, h2⟩]
    exact ⟨rfl, rfl, rfl, rfl⟩

theorem C4_tick_decrement_witness :
    tick ⟨[], [], [], true⟩ = ⟨[], [], [], true⟩ :=
  C4_tick_decrement.1 ⟨[], [], [], true⟩ rfl

/-- Claim C6 counterexample: in the group `[A, B, C]` with
`A.pending = [100, 1]` at remaining progress 1, `B.pending = [10, 10]` at
progress 10, and `C` idle, the code picks A (raw pending sum 101) as
busiest, while the progress-based load the claim describes is 2 for A and
20 for B, whose argmax is B — the steal decision uses the head's stored
original duration, not its remaining progress. -/
theorem C6_busiest_counterexample :
    (busiestPair [⟨[100, 1], 1, 100, false⟩, ⟨[10, 10], 10, 10, false⟩,
      ⟨[], 0, 0, false⟩]).1 = 0 ∧
    isBusy (qAt [⟨[100, 1], 1, 100, false⟩, ⟨[10, 10], 10, 10, false⟩,
      ⟨[], 0, 0, false⟩] 0) ∧
    isBusy (qAt [⟨[100, 1], 1, 100, false⟩, ⟨[10, 10], 10, 10, false⟩,
      ⟨[], 0, 0, false⟩] 1) ∧
    specStealLoad (qAt [⟨[100, 1], 1, 100, false⟩, ⟨[10, 10], 10, 10, false⟩,
      ⟨[], 0, 0, false⟩] 0) = 2 ∧
    specStealLoad (qAt [⟨[100, 1], 1, 100, false⟩, ⟨[10, 10], 10, 10, false⟩,
      ⟨[], 0, 0, false⟩] 1) = 20 ∧
    ¬ specStealLoad (qAt [⟨[100, 1], 1, 100, false⟩, ⟨[10, 10], 10, 10, false⟩,
      ⟨[], 0, 0, false⟩] 1) ≤
      specStealLoad (qAt [⟨[100, 1], 1, 100, false⟩, ⟨[10, 10], 10, 10, false⟩,
        ⟨[], 0, 0, false⟩] 0) := by
  refine ⟨?_, ?_, ?_, ?_, ?_, ?_⟩ <;> with_unfolding_all decide

/-- Claim C6 (amended): the busiest queue the Rebalancer picks for its
steal decision is the argmax over the busy queues of the RAW sum of all
pending values — the in-flight head counted at its stored original
duration, not at its remaining progress — with ties to the first queue in
group order. -/
theorem C6_busiest_by_raw_sum (g : List QState) (hb : busyIdxs g ≠ []) :
    (busiestPair g).1 ∈ busyIdxs g ∧
    (∀ j ∈ busyIdxs g,
      (qAt g j).pending.sum ≤ (qAt g (busiestPair g).1).pending.sum) ∧
    (∀ j ∈ busyIdxs g, j < (busiestPair g).1 →
      (qAt g j).pending.sum < (qAt g (busiestPair g).1).pending.sum) := by
  have h := busiestPair_spec g hb
  exact ⟨h.1, fun j hj => h.2.2.1 j hj, fun j hj hlt => h.2.2.2 j hj hlt⟩

theorem C6_busiest_by_raw_sum_witness :
    (busiestPair [⟨[100, 1], 1, 100, false⟩, ⟨[10, 10], 10, 10, false⟩,
      ⟨[], 0, 0, false⟩]).1 ∈
      busyIdxs [⟨[100, 1], 1, 100, false⟩, ⟨[10, 10], 10, 10, false⟩,
        ⟨[], 0, 0, false⟩] :=
  (C6_busiest_by_raw_sum [⟨[100, 1], 1, 100, false⟩, ⟨[10, 10], 10, 10, false⟩,
    ⟨[], 0, 0, false⟩] (by with_unfolding_all decide)).1

end MLQS
